import Mathlib

/-!
Shallow embedding of `src/ring_buffer.c`: a fixed-capacity SPSC ring buffer
for WLAN packet descriptors. All `uint32_t` arithmetic is modelled as `Nat`
arithmetic modulo `2 ^ 32`; the slot array is a `List` and `malloc`'s
indeterminate contents are a parameter `buf0` of `ring_init`. Pointer-output
functions (`ring_dequeue`, `ring_peek`) return `Option` values; state-mutating
functions return the updated ring explicitly.
-/

namespace RingC

/-- Modulus of `uint32_t` arithmetic. -/
def U32 : Nat := 2 ^ 32

/-- Embeds `uint32_t` subtraction `a - b` (wrap-around) for `a b : Nat`. -/
def sub32 (a b : Nat) : Nat := (a + (U32 - b % U32)) % U32

/-- Embeds `packet_desc_t`: `data` (a `uint8_t` pointer, kept as an opaque
numeric address), `paddr`, `len`, `flags`, `timestamp`. -/
structure packet_desc_t where
  data : Nat
  paddr : Nat
  len : Nat
  flags : Nat
  timestamp : Nat
deriving DecidableEq, Repr, Inhabited

/-- Embeds `ring_buffer_t`: slot array, producer index `head`, consumer index
`tail`, `mask` and `size`. -/
structure ring_buffer_t where
  buffer : List packet_desc_t
  head : Nat
  tail : Nat
  mask : Nat
  size : Nat
deriving DecidableEq, Repr

/-- Embeds `ring_init`: sets `head = tail = 0`, `size`, and
`mask = size - 1` (uint32 subtraction). The `malloc` result, whose contents
are indeterminate, is passed in as `buf0`. -/
def ring_init (buf0 : List packet_desc_t) (size : Nat) : ring_buffer_t :=
  { buffer := buf0, head := 0, tail := 0, mask := sub32 size 1, size := size }

/-- Embeds `ring_full`: `((head - tail) & mask) == mask`. -/
def ring_full (r : ring_buffer_t) : Bool :=
  (sub32 r.head r.tail) &&& r.mask == r.mask

/-- Embeds `ring_empty`: `head == tail`. -/
def ring_empty (r : ring_buffer_t) : Bool :=
  r.head == r.tail

/-- Embeds `ring_space`: `size - ((head - tail) & mask) - 1`
(uint32 subtractions). -/
def ring_space (r : ring_buffer_t) : Nat :=
  sub32 (sub32 r.size ((sub32 r.head r.tail) &&& r.mask)) 1

/-- Embeds `ring_enqueue`: if full, returns `false` with no mutation;
otherwise writes the descriptor to the unmasked slot `buffer[head]` and
publishes `head = (head + 1) & mask`. -/
def ring_enqueue (r : ring_buffer_t) (desc : packet_desc_t) :
    Bool × ring_buffer_t :=
  if ring_full r then (false, r)
  else
    let head := r.head
    (true, { r with buffer := r.buffer.set head desc,
                    head := ((head + 1) % U32) &&& r.mask })

/-- Embeds `ring_dequeue`: if empty, returns `false` (here `none`) with no
mutation; otherwise copies out the unmasked slot `buffer[tail]` and publishes
`tail = (tail + 1) & mask`. -/
def ring_dequeue (r : ring_buffer_t) : Option packet_desc_t × ring_buffer_t :=
  if ring_empty r then (none, r)
  else
    let tail := r.tail
    (some (r.buffer.getD tail default),
     { r with tail := ((tail + 1) % U32) &&& r.mask })

/-- Embeds `ring_peek`: `NULL` (here `none`) when empty, otherwise the
descriptor at `buffer[tail]`, with no state change. -/
def ring_peek (r : ring_buffer_t) : Option packet_desc_t :=
  if ring_empty r then none
  else some (r.buffer.getD r.tail default)

/-- Embeds the copy loop of `ring_enqueue_bulk`: for `i = 0 .. n-1` writes
`descs[i]` into `buffer[(head + i) & mask]` (writes in increasing `i`,
the `n = m + 1` case performing the write with `i = m` last). -/
def bulk_write (buf descs : List packet_desc_t) (head mask : Nat) :
    Nat → List packet_desc_t
  | 0 => buf
  | m + 1 =>
    (bulk_write buf descs head mask m).set (((head + m) % U32) &&& mask)
      (descs.getD m default)

/-- Proof-side restatement of the bulk copy loop with the slot index already
reduced to `(head + i) % size`; `bulk_write_eq` shows it agrees with
`bulk_write` on well-formed rings. -/
def bulk_writeM (buf descs : List packet_desc_t) (head size : Nat) :
    Nat → List packet_desc_t
  | 0 => buf
  | m + 1 =>
    (bulk_writeM buf descs head size m).set ((head + m) % size)
      (descs.getD m default)

/-- Embeds `ring_enqueue_bulk`: `n = (count < space) ? count : space`; if
`n == 0` returns `0` with no mutation, otherwise copies `descs[0..n)` into
the ring and publishes `head = (head + n) & mask`, returning `n`. -/
def ring_enqueue_bulk (r : ring_buffer_t) (descs : List packet_desc_t)
    (count : Nat) : Nat × ring_buffer_t :=
  let space := ring_space r
  let n := if count < space then count else space
  if n = 0 then (0, r)
  else
    (n, { r with buffer := bulk_write r.buffer descs r.head r.mask n,
                 head := ((r.head + n) % U32) &&& r.mask })

/-- Well-formedness of a ring state: positive power-of-two size that fits a
`uint32_t` (stated as `size` dividing `2 ^ 32` and `size < 2 ^ 32`),
`mask = size - 1`, both indices strictly below `size`, and the slot array
holding exactly `size` slots. -/
def ring_wf (r : ring_buffer_t) : Prop :=
  0 < r.size ∧ r.size < U32 ∧ U32 % r.size = 0 ∧ r.mask = r.size - 1 ∧
    r.head < r.size ∧ r.tail < r.size ∧ r.buffer.length = r.size

instance (r : ring_buffer_t) : Decidable (ring_wf r) := by
  unfold ring_wf; infer_instance

/-- Number of in-flight descriptors, as plain `Nat` arithmetic: the
mathematical value of `(head - tail) & mask` on a well-formed ring. -/
def ringDiff (r : ring_buffer_t) : Nat :=
  (r.head + r.size - r.tail) % r.size

/-- Abstraction function: the queue contents, oldest first — the slots from
`tail` (inclusive) to `head` (exclusive), indices taken modulo `size`. -/
def ring_list (r : ring_buffer_t) : List packet_desc_t :=
  (List.range (ringDiff r)).map
    (fun i => r.buffer.getD ((r.tail + i) % r.size) default)

/-- Enqueue each element of a list in turn; returns the final ring state and
the sublist of descriptors accepted by `ring_enqueue`, in order. -/
def enqueueList (r : ring_buffer_t) :
    List packet_desc_t → ring_buffer_t × List packet_desc_t
  | [] => (r, [])
  | d :: ds =>
    if (ring_enqueue r d).1 then
      ((enqueueList (ring_enqueue r d).2 ds).1,
       d :: (enqueueList (ring_enqueue r d).2 ds).2)
    else
      enqueueList (ring_enqueue r d).2 ds

/-- Dequeue `n` times; returns the final ring state and the descriptors
returned by `ring_dequeue`, in order (stopping early if the ring empties). -/
def dequeueN (r : ring_buffer_t) : Nat → ring_buffer_t × List packet_desc_t
  | 0 => (r, [])
  | n + 1 =>
    match (ring_dequeue r).1 with
    | some d =>
      ((dequeueN (ring_dequeue r).2 n).1, d :: (dequeueN (ring_dequeue r).2 n).2)
    | none => ((ring_dequeue r).2, [])

/-! ### Arithmetic groundwork -/

theorem maskU32 {size : Nat} (h0 : 0 < size) (hdvd : size ∣ U32) (x : Nat) :
    (x % U32) &&& (size - 1) = x % size := by
  have hd2 : size ∣ 2 ^ 32 := hdvd
  obtain ⟨k, hk, rfl⟩ := (Nat.dvd_prime_pow Nat.prime_two).mp hd2
  rw [Nat.and_pow_two_sub_one_eq_mod]
  exact Nat.mod_mod_of_dvd x (Nat.pow_dvd_pow 2 hk)

theorem mod_absorb {size : Nat} (h0 : 0 < size) (hdvd : size ∣ U32) (x t : Nat)
    (ht : t < size) : (x + (U32 - t)) % size = (x + size - t) % size := by
  obtain ⟨c, hc⟩ := Nat.dvd_sub' hdvd (dvd_refl size)
  have hsz : size ≤ U32 := Nat.le_of_dvd (by decide) hdvd
  have key : x + (U32 - t) = (x + size - t) + (U32 - size) := by omega
  rw [key, hc, Nat.add_mul_mod_self_left]

theorem sub32_small (a b : Nat) (hb : b ≤ a) (ha : a < U32) :
    sub32 a b = a - b := by
  unfold sub32
  have hbU : b % U32 = b := Nat.mod_eq_of_lt (Nat.lt_of_le_of_lt hb ha)
  rw [hbU]
  have key : a + (U32 - b) = (a - b) + U32 := by omega
  rw [key, Nat.add_mod_right, Nat.mod_eq_of_lt (by omega)]

theorem masked_diff {r : ring_buffer_t} (h : ring_wf r) :
    (sub32 r.head r.tail) &&& r.mask = ringDiff r := by
  obtain ⟨h0, hlt, hmod, hmask, hh, ht, hlen⟩ := h
  have hdvd : r.size ∣ U32 := Nat.dvd_of_mod_eq_zero hmod
  have ht32 : r.tail % U32 = r.tail := Nat.mod_eq_of_lt (lt_trans ht hlt)
  unfold sub32 ringDiff
  rw [ht32, hmask, maskU32 h0 hdvd, mod_absorb h0 hdvd r.head r.tail ht]

theorem mod_sub_char {h t n : Nat} (hh : h < n) (ht : t < n) :
    (h + n - t) % n = if t ≤ h then h - t else h + n - t := by
  rcases le_or_lt t h with hc | hc
  · have he : h + n - t = (h - t) + n := by omega
    rw [if_pos hc, he, Nat.add_mod_right, Nat.mod_eq_of_lt (by omega)]
  · rw [if_neg (by omega), Nat.mod_eq_of_lt (by omega)]

theorem ringDiff_lt {r : ring_buffer_t} (h : ring_wf r) : ringDiff r < r.size :=
  Nat.mod_lt _ h.1

theorem empty_iff {r : ring_buffer_t} (h : ring_wf r) :
    ring_empty r = true ↔ ringDiff r = 0 := by
  obtain ⟨h0, hlt, hmod, hmask, hh, ht, hlen⟩ := h
  unfold ring_empty ringDiff
  rw [beq_iff_eq, mod_sub_char hh ht]
  constructor
  · intro he; rw [he]; simp
  · intro hz; split at hz <;> omega

theorem full_iff {r : ring_buffer_t} (h : ring_wf r) :
    ring_full r = true ↔ ringDiff r = r.size - 1 := by
  have hd := masked_diff h
  unfold ring_full
  rw [beq_iff_eq, hd, h.2.2.2.1]

theorem space_eq {r : ring_buffer_t} (h : ring_wf r) :
    ring_space r = r.size - 1 - ringDiff r := by
  have hd := masked_diff h
  have hdlt : ringDiff r < r.size := ringDiff_lt h
  obtain ⟨h0, hlt, hmod, hmask, hh, ht, hlen⟩ := h
  unfold ring_space
  rw [hd, sub32_small r.size (ringDiff r) (Nat.le_of_lt hdlt) hlt,
      sub32_small (r.size - ringDiff r) 1 (by omega) (by omega)]
  omega

theorem ring_init_wf {size : Nat} (buf0 : List packet_desc_t) (h0 : 0 < size)
    (hlt : size < U32) (hmod : U32 % size = 0) (hlen : buf0.length = size) :
    ring_wf (ring_init buf0 size) := by
  refine ⟨h0, hlt, hmod, ?_, h0, h0, hlen⟩
  show sub32 size 1 = size - 1
  exact sub32_small size 1 h0 hlt

theorem ring_init_diff (buf0 : List packet_desc_t) (size : Nat) :
    ringDiff (ring_init buf0 size) = 0 := by
  unfold ringDiff ring_init
  simp

theorem ring_init_list (buf0 : List packet_desc_t) (size : Nat) :
    ring_list (ring_init buf0 size) = [] := by
  unfold ring_list
  rw [ring_init_diff]
  simp

/-! ### Index-stepping arithmetic -/

theorem diff_head_succ {h t size : Nat} (h0 : 0 < size) (hh : h < size)
    (ht : t < size) (hnf : (h + size - t) % size < size - 1) :
    ((h + 1) % size + size - t) % size = (h + size - t) % size + 1 := by
  have hchar := mod_sub_char hh ht
  rw [hchar] at hnf
  rcases Nat.lt_or_ge (h + 1) size with hc | hc
  · have h2 := mod_sub_char hc ht
    rw [Nat.mod_eq_of_lt hc, h2, hchar]
    rcases le_or_lt t h with h3 | h3
    · rw [if_pos (by omega), if_pos h3]; omega
    · rw [if_neg (by omega)] at hnf
      rw [if_neg (by omega), if_neg (by omega)]; omega
  · have hs : h + 1 = size := by omega
    rw [hs, Nat.mod_self]
    have h2 := mod_sub_char h0 ht
    rw [h2, hchar]
    rcases Nat.eq_zero_or_pos t with h3 | h3
    · exfalso; rw [if_pos (by omega)] at hnf; omega
    · rw [if_neg (by omega), if_pos (by omega)]; omega

theorem diff_tail_succ {h t size : Nat} (h0 : 0 < size) (hh : h < size)
    (ht : t < size) (hne : (h + size - t) % size ≠ 0) :
    (h + size - (t + 1) % size) % size = (h + size - t) % size - 1 := by
  have hchar := mod_sub_char hh ht
  rw [hchar] at hne
  rcases Nat.lt_or_ge (t + 1) size with hc | hc
  · rw [Nat.mod_eq_of_lt hc]
    have h2 := mod_sub_char hh hc
    rw [h2, hchar]
    rcases le_or_lt (t + 1) h with h3 | h3
    · rw [if_pos h3, if_pos (by omega)]; omega
    · rcases le_or_lt t h with h4 | h4
      · exfalso; rw [if_pos h4] at hne; omega
      · rw [if_neg (by omega), if_neg (by omega)]; omega
  · have hs : t + 1 = size := by omega
    rw [hs, Nat.mod_self]
    have h2 : (h + size - 0) % size = h := by
      rw [Nat.sub_zero, Nat.add_mod_right, Nat.mod_eq_of_lt hh]
    rw [h2, hchar]
    rcases le_or_lt t h with h3 | h3
    · exfalso; rw [if_pos h3] at hne; omega
    · rw [if_neg (by omega)]; omega

theorem head_eq_tail_add_diff {r : ring_buffer_t} (h : ring_wf r) :
    (r.tail + ringDiff r) % r.size = r.head := by
  obtain ⟨h0, hlt, hmod, hmask, hh, ht, hlen⟩ := h
  unfold ringDiff
  rw [Nat.add_mod_mod]
  have he : r.tail + (r.head + r.size - r.tail) = r.head + r.size := by omega
  rw [he, Nat.add_mod_right, Nat.mod_eq_of_lt hh]

theorem add_mod_inj {size t i j : Nat} (he : (t + i) % size = (t + j) % size)
    (hi : i < size) (hj : j < size) : i = j := by
  have h2 : i ≡ j [MOD size] := Nat.ModEq.add_left_cancel' t he
  have h3 : i % size = j % size := h2
  rw [Nat.mod_eq_of_lt hi, Nat.mod_eq_of_lt hj] at h3
  exact h3

/-! ### List access helpers -/

theorem getD_set_self {l : List packet_desc_t} {i : Nat} (hi : i < l.length)
    (a : packet_desc_t) : (l.set i a).getD i default = a := by
  rw [List.getD_eq_getElem?_getD, List.getElem?_set_self hi]
  rfl

theorem getD_set_ne {l : List packet_desc_t} {i j : Nat} (hne : i ≠ j)
    (a : packet_desc_t) : (l.set i a).getD j default = l.getD j default := by
  rw [List.getD_eq_getElem?_getD, List.getElem?_set_ne hne,
    ← List.getD_eq_getElem?_getD]

theorem ring_list_length (r : ring_buffer_t) :
    (ring_list r).length = ringDiff r := by
  unfold ring_list
  simp

theorem ring_list_getElem (r : ring_buffer_t) {i : Nat}
    (hi : i < (ring_list r).length) :
    (ring_list r)[i] = r.buffer.getD ((r.tail + i) % r.size) default := by
  unfold ring_list
  simp

/-! ### Operation specifications -/

theorem ring_enqueue_of_full {r : ring_buffer_t} (d : packet_desc_t)
    (h : ring_full r = true) : ring_enqueue r d = (false, r) := by
  simp [ring_enqueue, h]

theorem ring_enqueue_not_full {r : ring_buffer_t} (d : packet_desc_t)
    (h : ring_full r = false) :
    ring_enqueue r d =
      (true, { r with buffer := r.buffer.set r.head d,
                      head := ((r.head + 1) % U32) &&& r.mask }) := by
  simp [ring_enqueue, h]

theorem ring_dequeue_of_empty {r : ring_buffer_t} (h : ring_empty r = true) :
    ring_dequeue r = (none, r) := by
  simp [ring_dequeue, h]

theorem ring_dequeue_not_empty {r : ring_buffer_t} (h : ring_empty r = false) :
    ring_dequeue r = (some (r.buffer.getD r.tail default),
      { r with tail := ((r.tail + 1) % U32) &&& r.mask }) := by
  simp [ring_dequeue, h]

theorem head_succ_mod {r : ring_buffer_t} (h : ring_wf r) :
    ((r.head + 1) % U32) &&& r.mask = (r.head + 1) % r.size := by
  rw [h.2.2.2.1, maskU32 h.1 (Nat.dvd_of_mod_eq_zero h.2.2.1)]

theorem tail_succ_mod {r : ring_buffer_t} (h : ring_wf r) :
    ((r.tail + 1) % U32) &&& r.mask = (r.tail + 1) % r.size := by
  rw [h.2.2.2.1, maskU32 h.1 (Nat.dvd_of_mod_eq_zero h.2.2.1)]

theorem not_full_diff {r : ring_buffer_t} (h : ring_wf r)
    (hnf : ring_full r = false) : ringDiff r < r.size - 1 := by
  have hlt := ringDiff_lt h
  have hne : ringDiff r ≠ r.size - 1 := by
    intro hc
    rw [(full_iff h).mpr hc] at hnf
    cases hnf
  omega

theorem not_empty_diff {r : ring_buffer_t} (h : ring_wf r)
    (hne : ring_empty r = false) : ringDiff r ≠ 0 := by
  intro hc
  rw [(empty_iff h).mpr hc] at hne
  cases hne

theorem ring_enqueue_spec {r : ring_buffer_t} (d : packet_desc_t)
    (h : ring_wf r) (hnf : ring_full r = false) :
    ring_enqueue r d =
      (true, { r with buffer := r.buffer.set r.head d,
                      head := (r.head + 1) % r.size }) ∧
    ring_wf { r with buffer := r.buffer.set r.head d,
                     head := (r.head + 1) % r.size } ∧
    ringDiff { r with buffer := r.buffer.set r.head d,
                      head := (r.head + 1) % r.size } = ringDiff r + 1 ∧
    ring_list { r with buffer := r.buffer.set r.head d,
                       head := (r.head + 1) % r.size } = ring_list r ++ [d] := by
  have heq0 := ring_enqueue_not_full d hnf
  rw [head_succ_mod h] at heq0
  have hdlt := not_full_diff h hnf
  have hdsz := ringDiff_lt h
  have hheadeq := head_eq_tail_add_diff h
  obtain ⟨h0, hlt, hmod, hmask, hh, ht, hlen⟩ := h
  have hd1 : ringDiff { r with buffer := r.buffer.set r.head d,
                               head := (r.head + 1) % r.size }
      = ringDiff r + 1 := by
    show ((r.head + 1) % r.size + r.size - r.tail) % r.size
        = (r.head + r.size - r.tail) % r.size + 1
    exact diff_head_succ h0 hh ht hdlt
  have hblen : (r.buffer.set r.head d).length = r.size := by
    rw [List.length_set]; exact hlen
  refine ⟨heq0, ⟨h0, hlt, hmod, hmask, Nat.mod_lt _ h0, ht, hblen⟩, hd1, ?_⟩
  · unfold ring_list
    rw [hd1, List.range_succ, List.map_append]
    dsimp only
    congr 1
    · apply List.map_congr_left
      intro i hi
      rw [List.mem_range] at hi
      apply getD_set_ne
      intro hc
      rw [← hheadeq] at hc
      have := add_mod_inj hc hdsz (lt_trans hi hdsz)
      omega
    · simp only [List.map_cons, List.map_nil]
      rw [hheadeq, getD_set_self (by rw [hlen]; exact hh)]

theorem ring_dequeue_spec {r : ring_buffer_t} (h : ring_wf r)
    (hne : ring_empty r = false) :
    ring_dequeue r = (some (r.buffer.getD r.tail default),
      { r with tail := (r.tail + 1) % r.size }) ∧
    ring_wf { r with tail := (r.tail + 1) % r.size } ∧
    ringDiff { r with tail := (r.tail + 1) % r.size } = ringDiff r - 1 ∧
    ring_list r = r.buffer.getD r.tail default
      :: ring_list { r with tail := (r.tail + 1) % r.size } := by
  have heq0 := ring_dequeue_not_empty hne
  rw [tail_succ_mod h] at heq0
  have hdne := not_empty_diff h hne
  have hdsz := ringDiff_lt h
  obtain ⟨h0, hlt, hmod, hmask, hh, ht, hlen⟩ := h
  have hd1 : ringDiff { r with tail := (r.tail + 1) % r.size }
      = ringDiff r - 1 := by
    show (r.head + r.size - (r.tail + 1) % r.size) % r.size
        = (r.head + r.size - r.tail) % r.size - 1
    exact diff_tail_succ h0 hh ht hdne
  obtain ⟨m, hm⟩ := Nat.exists_eq_succ_of_ne_zero hdne
  refine ⟨heq0, ⟨h0, hlt, hmod, hmask, hh, Nat.mod_lt _ h0, hlen⟩, hd1, ?_⟩
  unfold ring_list
  rw [hd1, hm, Nat.succ_sub_one, List.range_succ_eq_map, List.map_cons,
    List.map_map]
  dsimp only
  congr 1
  · rw [Nat.add_zero, Nat.mod_eq_of_lt ht]
  · apply List.map_congr_left
    intro i hi
    simp only [Function.comp, Nat.succ_eq_add_one]
    have harg : (r.tail + (i + 1)) % r.size
        = ((r.tail + 1) % r.size + i) % r.size := by
      rw [Nat.mod_add_mod]
      congr 1
      omega
    rw [harg]

/-! ### Specifications of operation sequences -/

theorem enqueueList_spec (ds : List packet_desc_t) : ∀ {r : ring_buffer_t},
    ring_wf r →
    ring_wf (enqueueList r ds).1 ∧ (enqueueList r ds).1.size = r.size ∧
    ring_list (enqueueList r ds).1 = ring_list r ++ (enqueueList r ds).2 := by
  induction ds with
  | nil => intro r h; simp [enqueueList, h]
  | cons d ds ih =>
    intro r h
    cases hf : ring_full r with
    | true =>
      have heq := ring_enqueue_of_full d hf
      have hok : (ring_enqueue r d).1 = false := by rw [heq]
      have hr2 : (ring_enqueue r d).2 = r := by rw [heq]
      have hstep : enqueueList r (d :: ds)
          = enqueueList (ring_enqueue r d).2 ds := by
        simp [enqueueList, hok]
      obtain ⟨ihwf, ihsz, ihlist⟩ := ih (show ring_wf (ring_enqueue r d).2 by
        rw [hr2]; exact h)
      rw [hr2] at ihwf ihsz ihlist
      rw [hstep, hr2]
      exact ⟨ihwf, ihsz, ihlist⟩
    | false =>
      obtain ⟨heq, hwf1, hd1, hl1⟩ := ring_enqueue_spec d h hf
      have hok : (ring_enqueue r d).1 = true := by rw [heq]
      have hr2 : (ring_enqueue r d).2
          = { r with buffer := r.buffer.set r.head d,
                     head := (r.head + 1) % r.size } := by rw [heq]
      have hwf2 : ring_wf (ring_enqueue r d).2 := by rw [hr2]; exact hwf1
      have hl2 : ring_list (ring_enqueue r d).2 = ring_list r ++ [d] := by
        rw [hr2]; exact hl1
      have hsz2 : (ring_enqueue r d).2.size = r.size := by rw [hr2]
      have hstep : enqueueList r (d :: ds)
          = ((enqueueList (ring_enqueue r d).2 ds).1,
             d :: (enqueueList (ring_enqueue r d).2 ds).2) := by
        simp [enqueueList, hok]
      obtain ⟨ihwf, ihsz, ihlist⟩ := ih hwf2
      rw [hstep]
      dsimp only
      refine ⟨ihwf, by rw [ihsz, hsz2], ?_⟩
      rw [ihlist, hl2, List.append_assoc, List.singleton_append]

theorem enqueueList_all (ds : List packet_desc_t) : ∀ {r : ring_buffer_t},
    ring_wf r → ringDiff r + ds.length ≤ r.size - 1 →
    (enqueueList r ds).2 = ds ∧ ring_wf (enqueueList r ds).1 ∧
    (enqueueList r ds).1.size = r.size ∧
    ringDiff (enqueueList r ds).1 = ringDiff r + ds.length := by
  induction ds with
  | nil => intro r h _; simp [enqueueList, h]
  | cons d ds ih =>
    intro r h hroom
    rw [List.length_cons] at hroom
    have hf : ring_full r = false := by
      cases hf2 : ring_full r with
      | false => rfl
      | true =>
        have hfull := (full_iff h).mp hf2
        omega
    obtain ⟨heq, hwf1, hd1, hl1⟩ := ring_enqueue_spec d h hf
    have hok : (ring_enqueue r d).1 = true := by rw [heq]
    have hr2 : (ring_enqueue r d).2
        = { r with buffer := r.buffer.set r.head d,
                   head := (r.head + 1) % r.size } := by rw [heq]
    have hwf2 : ring_wf (ring_enqueue r d).2 := by rw [hr2]; exact hwf1
    have hd2 : ringDiff (ring_enqueue r d).2 = ringDiff r + 1 := by
      rw [hr2]; exact hd1
    have hsz2 : (ring_enqueue r d).2.size = r.size := by rw [hr2]
    have hroom2 : ringDiff (ring_enqueue r d).2 + ds.length
        ≤ (ring_enqueue r d).2.size - 1 := by
      rw [hd2, hsz2]; omega
    obtain ⟨ihacc, ihwf, ihsz, ihd⟩ := ih hwf2 hroom2
    have hstep : enqueueList r (d :: ds)
        = ((enqueueList (ring_enqueue r d).2 ds).1,
           d :: (enqueueList (ring_enqueue r d).2 ds).2) := by
      simp [enqueueList, hok]
    rw [hstep]
    dsimp only
    refine ⟨by rw [ihacc], ihwf, by rw [ihsz, hsz2], ?_⟩
    rw [ihd, hd2, List.length_cons]
    omega

theorem dequeueN_spec (n : Nat) : ∀ {r : ring_buffer_t}, ring_wf r →
    n ≤ (ring_list r).length →
    ring_wf (dequeueN r n).1 ∧ (dequeueN r n).1.size = r.size ∧
    (dequeueN r n).2 = (ring_list r).take n ∧
    ring_list (dequeueN r n).1 = (ring_list r).drop n := by
  induction n with
  | zero => intro r h _; simp [dequeueN, h]
  | succ m ih =>
    intro r h hn
    have hne : ring_empty r = false := by
      cases he : ring_empty r with
      | false => rfl
      | true =>
        have hz := (empty_iff h).mp he
        rw [ring_list_length] at hn
        omega
    obtain ⟨heq, hwf1, hd1, hcons⟩ := ring_dequeue_spec h hne
    have hopt : (ring_dequeue r).1 = some (r.buffer.getD r.tail default) := by
      rw [heq]
    have hr2 : (ring_dequeue r).2 = { r with tail := (r.tail + 1) % r.size } := by
      rw [heq]
    have hwf2 : ring_wf (ring_dequeue r).2 := by rw [hr2]; exact hwf1
    have hn2 : m ≤ (ring_list (ring_dequeue r).2).length := by
      rw [hr2]
      rw [hcons, List.length_cons] at hn
      omega
    have hstep : dequeueN r (m + 1)
        = ((dequeueN (ring_dequeue r).2 m).1,
           r.buffer.getD r.tail default :: (dequeueN (ring_dequeue r).2 m).2) := by
      simp [dequeueN, hopt]
    obtain ⟨ihwf, ihsz, ihtake, ihdrop⟩ := ih hwf2 hn2
    rw [hstep]
    dsimp only
    refine ⟨ihwf, by rw [ihsz, hr2], ?_, ?_⟩
    · rw [ihtake, hr2, hcons, List.take_succ_cons]
    · rw [ihdrop, hr2, hcons, List.drop_succ_cons]

/-! ### Bulk-enqueue machinery -/

theorem diff_head_add {h t size : Nat} (n : Nat) (h0 : 0 < size) (hh : h < size)
    (ht : t < size) (hbound : (h + size - t) % size + n ≤ size - 1) :
    ((h + n) % size + size - t) % size = (h + size - t) % size + n := by
  induction n with
  | zero => rw [Nat.add_zero, Nat.mod_eq_of_lt hh, Nat.add_zero]
  | succ m ih =>
    have hb2 : (h + size - t) % size + m ≤ size - 1 := by omega
    have hstep : (h + (m + 1)) % size = ((h + m) % size + 1) % size := by
      rw [Nat.mod_add_mod, Nat.add_assoc]
    have hihm := ih hb2
    have hlt2 : ((h + m) % size + size - t) % size < size - 1 := by
      rw [hihm]; omega
    rw [hstep, diff_head_succ h0 (Nat.mod_lt _ h0) ht hlt2, hihm]
    omega

theorem bulk_write_eq {size : Nat} (h0 : 0 < size) (hdvd : size ∣ U32)
    (buf descs : List packet_desc_t) (head : Nat) :
    ∀ n, bulk_write buf descs head (size - 1) n
      = bulk_writeM buf descs head size n
  | 0 => rfl
  | m + 1 => by
    rw [bulk_write, bulk_writeM, bulk_write_eq h0 hdvd buf descs head m,
      maskU32 h0 hdvd]

theorem bulk_writeM_length (buf descs : List packet_desc_t) (head size : Nat) :
    ∀ n, (bulk_writeM buf descs head size n).length = buf.length
  | 0 => rfl
  | m + 1 => by
    rw [bulk_writeM, List.length_set, bulk_writeM_length buf descs head size m]

theorem bulk_writeM_getD_miss {buf descs : List packet_desc_t}
    {head size : Nat} {j : Nat} :
    ∀ {n : Nat}, (∀ i < n, j ≠ (head + i) % size) →
    (bulk_writeM buf descs head size n).getD j default = buf.getD j default := by
  intro n
  induction n with
  | zero => intro _; rfl
  | succ m ih =>
    intro hj
    rw [bulk_writeM,
      getD_set_ne (fun hc => hj m (Nat.lt_succ_self m) hc.symm) _]
    exact ih (fun i hi => hj i (Nat.lt_succ_of_lt hi))

theorem bulk_writeM_getD_hit {buf descs : List packet_desc_t}
    {head size : Nat} (h0 : 0 < size) (hlen : buf.length = size) :
    ∀ {n i : Nat}, i < n → n ≤ size →
    (bulk_writeM buf descs head size n).getD ((head + i) % size) default
      = descs.getD i default := by
  intro n
  induction n with
  | zero => intro i hi _; omega
  | succ m ih =>
    intro i hi hn
    rcases Nat.lt_or_ge i m with hc | hc
    · rw [bulk_writeM, getD_set_ne ?_ _]
      · exact ih hc (by omega)
      · intro he
        have hmi := add_mod_inj he (by omega) (by omega)
        omega
    · have him : i = m := by omega
      subst him
      rw [bulk_writeM,
        getD_set_self (by rw [bulk_writeM_length, hlen]; exact Nat.mod_lt _ h0) _]

theorem take_eq_map_range {l : List packet_desc_t} {n : Nat}
    (hn : n ≤ l.length) :
    l.take n = (List.range n).map (fun i => l.getD i default) := by
  apply List.ext_getElem
  · rw [List.length_take, List.length_map, List.length_range]
    omega
  · intro i h1 h2
    rw [List.length_take] at h1
    rw [List.getElem_take, List.getElem_map, List.getElem_range,
      List.getD_eq_getElem?_getD, List.getElem?_eq_getElem (by omega)]
    rfl

theorem ring_enqueue_bulk_eq (r : ring_buffer_t) (descs : List packet_desc_t)
    (count n : Nat)
    (hn : (if count < ring_space r then count else ring_space r) = n) :
    ring_enqueue_bulk r descs count =
      if n = 0 then (0, r)
      else (n, { r with buffer := bulk_write r.buffer descs r.head r.mask n,
                        head := ((r.head + n) % U32) &&& r.mask }) := by
  subst hn
  rfl

set_option maxRecDepth 100000 in
theorem ring_enqueue_bulk_spec {r : ring_buffer_t} (h : ring_wf r)
    (descs : List packet_desc_t) (count : Nat) :
    (ring_enqueue_bulk r descs count).1 = min count (ring_space r) ∧
    (min count (ring_space r) = 0 → (ring_enqueue_bulk r descs count).2 = r) ∧
    ring_wf (ring_enqueue_bulk r descs count).2 ∧
    ring_list (ring_enqueue_bulk r descs count).2
      = ring_list r ++ (List.range (min count (ring_space r))).map
          (fun i => descs.getD i default) := by
  have hwf := h
  have hspace := space_eq h
  have hdsz := ringDiff_lt h
  have hheadeq := head_eq_tail_add_diff h
  obtain ⟨h0, hlt, hmod, hmask, hh, ht, hlen⟩ := h
  have hdvd : r.size ∣ U32 := Nat.dvd_of_mod_eq_zero hmod
  have hmin : (if count < ring_space r then count else ring_space r)
      = min count (ring_space r) := by
    rw [Nat.min_def]
    rcases Nat.lt_or_ge count (ring_space r) with hc | hc
    · rw [if_pos hc, if_pos (Nat.le_of_lt hc)]
    · rw [if_neg (by omega)]
      split <;> omega
  have hred := ring_enqueue_bulk_eq r descs count _ hmin
  rcases Nat.eq_zero_or_pos (min count (ring_space r)) with hn0 | hnpos
  · rw [hred, if_pos hn0, hn0]
    exact ⟨rfl, fun _ => rfl, hwf, by simp⟩
  · rw [hred, if_neg (by omega)]
    have hroom : ringDiff r + min count (ring_space r) ≤ r.size - 1 := by
      have hmsp : min count (ring_space r) ≤ ring_space r := Nat.min_le_right _ _
      omega
    have hhead2 : ((r.head + min count (ring_space r)) % U32) &&& r.mask
        = (r.head + min count (ring_space r)) % r.size := by
      rw [hmask]; exact maskU32 h0 hdvd _
    have hbuf2 : bulk_write r.buffer descs r.head r.mask
          (min count (ring_space r))
        = bulk_writeM r.buffer descs r.head r.size
          (min count (ring_space r)) := by
      rw [hmask]; exact bulk_write_eq h0 hdvd r.buffer descs r.head _
    rw [hhead2, hbuf2]
    dsimp only
    have hblen : (bulk_writeM r.buffer descs r.head r.size
        (min count (ring_space r))).length = r.size := by
      rw [bulk_writeM_length]; exact hlen
    have hd2 : ringDiff { r with
          buffer := bulk_writeM r.buffer descs r.head r.size
            (min count (ring_space r)),
          head := (r.head + min count (ring_space r)) % r.size }
        = ringDiff r + min count (ring_space r) := by
      show ((r.head + min count (ring_space r)) % r.size + r.size - r.tail)
          % r.size = (r.head + r.size - r.tail) % r.size
            + min count (ring_space r)
      exact diff_head_add _ h0 hh ht hroom
    refine ⟨rfl, fun hc => absurd hc (by omega),
      ⟨h0, hlt, hmod, hmask, Nat.mod_lt _ h0, ht, hblen⟩, ?_⟩
    apply List.ext_getElem
    · rw [ring_list_length, hd2, List.length_append, ring_list_length,
        List.length_map, List.length_range]
    · intro i h1 h2
      have hi2 : i < ringDiff r + min count (ring_space r) := by
        rw [ring_list_length, hd2] at h1
        exact h1
      rw [ring_list_getElem _ h1]
      dsimp only
      rcases Nat.lt_or_ge i (ringDiff r) with hc | hc
      · rw [List.getElem_append_left (by rw [ring_list_length]; exact hc),
          ring_list_getElem _ (by rw [ring_list_length]; exact hc)]
        apply bulk_writeM_getD_miss
        intro j hj hceq
        rw [← hheadeq, Nat.mod_add_mod, Nat.add_assoc] at hceq
        have := add_mod_inj hceq (by omega) (by omega)
        omega
      · rw [List.getElem_append_right (by rw [ring_list_length]; exact hc),
          List.getElem_map, List.getElem_range, ring_list_length]
        have ha : r.tail + i = r.tail + ringDiff r + (i - ringDiff r) := by
          omega
        have hidx : (r.tail + i) % r.size
            = (r.head + (i - ringDiff r)) % r.size := by
          rw [ha, ← hheadeq, Nat.mod_add_mod]
        rw [hidx]
        exact bulk_writeM_getD_hit h0 hlen (by omega) (by omega)

theorem diff_zero_of_eq {r : ring_buffer_t} (he : r.head = r.tail) :
    ringDiff r = 0 := by
  unfold ringDiff
  rw [he]
  have ha : r.tail + r.size - r.tail = r.size := by omega
  rw [ha, Nat.mod_self]

theorem ring_list_nil_of_diff {r : ring_buffer_t} (hd : ringDiff r = 0) :
    ring_list r = [] := by
  unfold ring_list
  rw [hd]
  simp

/-! ### Claim theorems -/

/-- C1: FIFO order — starting from an empty well-formed ring, enqueue any
sequence of descriptors and then dequeue as many times as `ring_enqueue`
accepted; the dequeued descriptors are exactly the accepted ones, in the
order they were enqueued. -/
theorem C1_fifo_order (r : ring_buffer_t) (ds : List packet_desc_t)
    (hwf : ring_wf r) (hempty : r.head = r.tail) :
    (dequeueN (enqueueList r ds).1 (enqueueList r ds).2.length).2
      = (enqueueList r ds).2 ∧
    ring_empty (dequeueN (enqueueList r ds).1
      (enqueueList r ds).2.length).1 = true := by
  have hnil : ring_list r = [] := ring_list_nil_of_diff (diff_zero_of_eq hempty)
  obtain ⟨hwf1, hsz1, hlist1⟩ := enqueueList_spec ds hwf
  rw [hnil, List.nil_append] at hlist1
  obtain ⟨hwf2, hsz2, htake, hdrop⟩ :=
    dequeueN_spec (enqueueList r ds).2.length hwf1
      (Nat.le_of_eq (by rw [hlist1]))
  constructor
  · rw [htake, hlist1, List.take_length]
  · apply (empty_iff hwf2).mpr
    rw [← ring_list_length, hdrop, hlist1, List.drop_length]
    rfl

/-- C1 witness: capacity 4, three distinct descriptors enqueued then
dequeued come back in order. -/
theorem C1_fifo_order_witness :
    (dequeueN (enqueueList (ring_init (List.replicate 4 default) 4)
        [⟨1, 2, 3, 4, 5⟩, ⟨6, 7, 8, 9, 10⟩, ⟨11, 12, 13, 14, 15⟩]).1
      (enqueueList (ring_init (List.replicate 4 default) 4)
        [⟨1, 2, 3, 4, 5⟩, ⟨6, 7, 8, 9, 10⟩, ⟨11, 12, 13, 14, 15⟩]).2.length).2
      = (enqueueList (ring_init (List.replicate 4 default) 4)
        [⟨1, 2, 3, 4, 5⟩, ⟨6, 7, 8, 9, 10⟩, ⟨11, 12, 13, 14, 15⟩]).2 ∧
    ring_empty (dequeueN (enqueueList (ring_init (List.replicate 4 default) 4)
        [⟨1, 2, 3, 4, 5⟩, ⟨6, 7, 8, 9, 10⟩, ⟨11, 12, 13, 14, 15⟩]).1
      (enqueueList (ring_init (List.replicate 4 default) 4)
        [⟨1, 2, 3, 4, 5⟩, ⟨6, 7, 8, 9, 10⟩, ⟨11, 12, 13, 14, 15⟩]).2.length).1
      = true :=
  C1_fifo_order (ring_init (List.replicate 4 default) 4)
    [⟨1, 2, 3, 4, 5⟩, ⟨6, 7, 8, 9, 10⟩, ⟨11, 12, 13, 14, 15⟩]
    (by decide) (by decide)

/-- C2: capacity bound — from a freshly constructed ring with power-of-two
capacity, capacity − 1 enqueues all succeed; the next enqueue attempt finds
the ring full, returns false and leaves the ring unchanged. -/
theorem C2_capacity_bound (size : Nat) (buf0 ds : List packet_desc_t)
    (d : packet_desc_t) (h0 : 0 < size) (hlt : size < U32)
    (hmod : U32 % size = 0) (hlen : buf0.length = size)
    (hds : ds.length = size - 1) :
    (enqueueList (ring_init buf0 size) ds).2 = ds ∧
    ring_full (enqueueList (ring_init buf0 size) ds).1 = true ∧
    ring_enqueue (enqueueList (ring_init buf0 size) ds).1 d
      = (false, (enqueueList (ring_init buf0 size) ds).1) := by
  have hwf := ring_init_wf buf0 h0 hlt hmod hlen
  have hd0 := ring_init_diff buf0 size
  obtain ⟨hacc, hwf1, hsz1, hd1⟩ := enqueueList_all ds hwf (by
    rw [hd0, hds]
    show 0 + (size - 1) ≤ size - 1
    omega)
  have hfull : ring_full (enqueueList (ring_init buf0 size) ds).1 = true := by
    apply (full_iff hwf1).mpr
    rw [hd1, hd0, hds, hsz1]
    show 0 + (size - 1) = size - 1
    omega
  exact ⟨hacc, hfull, ring_enqueue_of_full d hfull⟩

/-- C2 witness: capacity 4 — three enqueues accepted, the fourth attempt
fails with the ring full and unchanged. -/
theorem C2_capacity_bound_witness :
    (enqueueList (ring_init (List.replicate 4 default) 4)
        [⟨1, 2, 3, 4, 5⟩, ⟨6, 7, 8, 9, 10⟩, ⟨11, 12, 13, 14, 15⟩]).2
      = [⟨1, 2, 3, 4, 5⟩, ⟨6, 7, 8, 9, 10⟩, ⟨11, 12, 13, 14, 15⟩] ∧
    ring_full (enqueueList (ring_init (List.replicate 4 default) 4)
        [⟨1, 2, 3, 4, 5⟩, ⟨6, 7, 8, 9, 10⟩, ⟨11, 12, 13, 14, 15⟩]).1 = true ∧
    ring_enqueue (enqueueList (ring_init (List.replicate 4 default) 4)
        [⟨1, 2, 3, 4, 5⟩, ⟨6, 7, 8, 9, 10⟩, ⟨11, 12, 13, 14, 15⟩]).1
        ⟨16, 17, 18, 19, 20⟩
      = (false, (enqueueList (ring_init (List.replicate 4 default) 4)
        [⟨1, 2, 3, 4, 5⟩, ⟨6, 7, 8, 9, 10⟩, ⟨11, 12, 13, 14, 15⟩]).1) :=
  C2_capacity_bound 4 (List.replicate 4 default)
    [⟨1, 2, 3, 4, 5⟩, ⟨6, 7, 8, 9, 10⟩, ⟨11, 12, 13, 14, 15⟩]
    ⟨16, 17, 18, 19, 20⟩ (by decide) (by decide) (by decide) (by decide)
    (by decide)

/-- C3 counterexample: `ring_init` performs no power-of-two validation —
called with capacity 5 it does not fail but builds a fully populated state
(size 5, mask 4, both indices 0, five allocated slots). -/
theorem C3_counterexample_no_validation :
    (ring_init (List.replicate 5 default) 5).size = 5 ∧
    (ring_init (List.replicate 5 default) 5).mask = 4 ∧
    (ring_init (List.replicate 5 default) 5).head = 0 ∧
    (ring_init (List.replicate 5 default) 5).tail = 0 ∧
    (ring_init (List.replicate 5 default) 5).buffer.length = 5 := by
  refine ⟨rfl, ?_, rfl, rfl, by decide⟩
  show sub32 5 1 = 4
  decide

/-- C3 amended: `ring_init` validates nothing — `init 5` succeeds, producing
state with size 5 and mask 4, while `init 8` succeeds with both indices 0
and `space()` equal to 7. -/
theorem C3_amended_init_no_validation :
    (ring_init (List.replicate 5 default) 5).size = 5 ∧
    (ring_init (List.replicate 5 default) 5).mask = 4 ∧
    (ring_init (List.replicate 8 default) 8).head = 0 ∧
    (ring_init (List.replicate 8 default) 8).tail = 0 ∧
    ring_space (ring_init (List.replicate 8 default) 8) = 7 := by
  refine ⟨rfl, ?_, rfl, rfl, ?_⟩
  · show sub32 5 1 = 4
    decide
  · decide

/-- C4: bulk partial acceptance — `ring_enqueue_bulk` accepts and returns
`n = min count space`; when `n = 0` it returns 0 with no mutation; otherwise
exactly the first `n` descriptors are appended to the ring contents in
order, and the rest of the input is not consumed. -/
theorem C4_bulk_acceptance (r : ring_buffer_t) (descs : List packet_desc_t)
    (count : Nat) (h : ring_wf r) (hcount : count ≤ descs.length) :
    (ring_enqueue_bulk r descs count).1 = min count (ring_space r) ∧
    (min count (ring_space r) = 0 →
      (ring_enqueue_bulk r descs count).2 = r) ∧
    ring_list (ring_enqueue_bulk r descs count).2
      = ring_list r ++ descs.take (min count (ring_space r)) := by
  obtain ⟨hret, hzero, hwf2, hlist⟩ := ring_enqueue_bulk_spec h descs count
  refine ⟨hret, hzero, ?_⟩
  rw [take_eq_map_range (le_trans (Nat.min_le_left _ _) hcount)]
  exact hlist

/-- C4 witness: a ring of capacity 4 holding 2 descriptors has space 1;
bulk-enqueueing 3 descriptors accepts exactly the first one. -/
theorem C4_bulk_acceptance_witness :
    (ring_enqueue_bulk ⟨List.replicate 4 default, 2, 0, 3, 4⟩
        [⟨1, 1, 1, 1, 1⟩, ⟨2, 2, 2, 2, 2⟩, ⟨3, 3, 3, 3, 3⟩] 3).1
      = min 3 (ring_space ⟨List.replicate 4 default, 2, 0, 3, 4⟩) ∧
    (min 3 (ring_space ⟨List.replicate 4 default, 2, 0, 3, 4⟩) = 0 →
      (ring_enqueue_bulk ⟨List.replicate 4 default, 2, 0, 3, 4⟩
        [⟨1, 1, 1, 1, 1⟩, ⟨2, 2, 2, 2, 2⟩, ⟨3, 3, 3, 3, 3⟩] 3).2
        = ⟨List.replicate 4 default, 2, 0, 3, 4⟩) ∧
    ring_list (ring_enqueue_bulk ⟨List.replicate 4 default, 2, 0, 3, 4⟩
        [⟨1, 1, 1, 1, 1⟩, ⟨2, 2, 2, 2, 2⟩, ⟨3, 3, 3, 3, 3⟩] 3).2
      = ring_list ⟨List.replicate 4 default, 2, 0, 3, 4⟩
        ++ [⟨1, 1, 1, 1, 1⟩, ⟨2, 2, 2, 2, 2⟩,
            ⟨3, 3, 3, 3, 3⟩].take
          (min 3 (ring_space ⟨List.replicate 4 default, 2, 0, 3, 4⟩)) :=
  C4_bulk_acceptance ⟨List.replicate 4 default, 2, 0, 3, 4⟩
    [⟨1, 1, 1, 1, 1⟩, ⟨2, 2, 2, 2, 2⟩, ⟨3, 3, 3, 3, 3⟩] 3
    (by decide) (by decide)

/-- C5: field fidelity — a descriptor enqueued into a non-full well-formed
ring and later dequeued (after the older entries are drained) comes back
with every field (payload reference, physical address, length, flags,
timestamp) unchanged. -/
theorem C5_field_fidelity (r : ring_buffer_t) (d : packet_desc_t)
    (h : ring_wf r) (hnf : ring_full r = false) :
    ∃ d2, (ring_dequeue (dequeueN (ring_enqueue r d).2
        (ring_list r).length).1).1 = some d2 ∧
      d2.data = d.data ∧ d2.paddr = d.paddr ∧ d2.len = d.len ∧
      d2.flags = d.flags ∧ d2.timestamp = d.timestamp := by
  obtain ⟨heq, hwf1, hd1, hl1⟩ := ring_enqueue_spec d h hnf
  have hwf2 : ring_wf (ring_enqueue r d).2 := by rw [heq]; exact hwf1
  have hl2 : ring_list (ring_enqueue r d).2 = ring_list r ++ [d] := by
    rw [heq]; exact hl1
  obtain ⟨hwf3, hsz3, htake3, hdrop3⟩ :=
    dequeueN_spec (ring_list r).length hwf2 (by
      rw [hl2, List.length_append]
      simp)
  have hl3 : ring_list (dequeueN (ring_enqueue r d).2
      (ring_list r).length).1 = [d] := by
    rw [hdrop3, hl2, List.drop_left]
  have hne3 : ring_empty (dequeueN (ring_enqueue r d).2
      (ring_list r).length).1 = false := by
    cases he : ring_empty (dequeueN (ring_enqueue r d).2
        (ring_list r).length).1 with
    | false => rfl
    | true =>
      have hz := (empty_iff hwf3).mp he
      have hlen1 := ring_list_length (dequeueN (ring_enqueue r d).2
        (ring_list r).length).1
      rw [hl3] at hlen1
      simp at hlen1
      omega
  obtain ⟨heq3, hwf4, hd4, hcons3⟩ := ring_dequeue_spec hwf3 hne3
  rw [hl3] at hcons3
  have hd0 : (dequeueN (ring_enqueue r d).2
      (ring_list r).length).1.buffer.getD
      (dequeueN (ring_enqueue r d).2 (ring_list r).length).1.tail default
      = d := by
    injection hcons3 with h1 _
    exact h1.symm
  refine ⟨d, ?_, rfl, rfl, rfl, rfl, rfl⟩
  rw [heq3, hd0]

/-- C5 witness: a capacity-4 ring holding one in-flight descriptor; a fresh
descriptor survives the round trip with all five fields intact. -/
theorem C5_field_fidelity_witness :
    ∃ d2, (ring_dequeue (dequeueN
        (ring_enqueue ⟨List.replicate 4 default, 2, 1, 3, 4⟩
          ⟨9, 8, 7, 6, 5⟩).2
        (ring_list ⟨List.replicate 4 default, 2, 1, 3, 4⟩).length).1).1
        = some d2 ∧
      d2.data = (⟨9, 8, 7, 6, 5⟩ : packet_desc_t).data ∧
      d2.paddr = (⟨9, 8, 7, 6, 5⟩ : packet_desc_t).paddr ∧
      d2.len = (⟨9, 8, 7, 6, 5⟩ : packet_desc_t).len ∧
      d2.flags = (⟨9, 8, 7, 6, 5⟩ : packet_desc_t).flags ∧
      d2.timestamp = (⟨9, 8, 7, 6, 5⟩ : packet_desc_t).timestamp :=
  C5_field_fidelity ⟨List.replicate 4 default, 2, 1, 3, 4⟩ ⟨9, 8, 7, 6, 5⟩
    (by decide) (by decide)

/-- C6: space accounting — for every well-formed state, `ring_space` equals
`size − ((head − tail) & mask) − 1`; and after `k` accepted enqueues
followed by `j` dequeues starting from an empty ring
(k ≤ capacity − 1, j ≤ k), `ring_space` equals capacity − 1 − (k − j). -/
theorem C6_space_accounting (r s : ring_buffer_t) (ds : List packet_desc_t)
    (j : Nat) (hs : ring_wf s) (hwf : ring_wf r) (hempty : r.head = r.tail)
    (hk : ds.length ≤ r.size - 1) (hj : j ≤ ds.length) :
    ring_space s = s.size - ((sub32 s.head s.tail) &&& s.mask) - 1 ∧
    ring_space (dequeueN (enqueueList r ds).1 j).1
      = r.size - 1 - (ds.length - j) := by
  constructor
  · rw [space_eq hs, masked_diff hs]
    omega
  · have hd0 : ringDiff r = 0 := diff_zero_of_eq hempty
    obtain ⟨hacc, hwf1, hsz1, hd1⟩ := enqueueList_all ds hwf (by rw [hd0]; omega)
    obtain ⟨hwf2, hsz2, htake, hdrop⟩ := dequeueN_spec j hwf1 (by
      rw [ring_list_length, hd1, hd0]; omega)
    rw [space_eq hwf2]
    have hdiff2 : ringDiff (dequeueN (enqueueList r ds).1 j).1
        = ds.length - j := by
      rw [← ring_list_length, hdrop, List.length_drop, ring_list_length, hd1,
        hd0]
      omega
    rw [hdiff2, hsz2, hsz1]

/-- C6 witness: capacity 4, three enqueues and one dequeue leave space
4 − 1 − 2 = 1; and the formula instance holds on a sample state. -/
theorem C6_space_accounting_witness :
    ring_space ⟨List.replicate 4 default, 2, 1, 3, 4⟩
      = (⟨List.replicate 4 default, 2, 1, 3, 4⟩ : ring_buffer_t).size
        - ((sub32 (⟨List.replicate 4 default, 2, 1, 3, 4⟩
             : ring_buffer_t).head
            (⟨List.replicate 4 default, 2, 1, 3, 4⟩ : ring_buffer_t).tail)
          &&& (⟨List.replicate 4 default, 2, 1, 3, 4⟩
             : ring_buffer_t).mask) - 1 ∧
    ring_space (dequeueN (enqueueList (ring_init (List.replicate 4 default) 4)
        [⟨1, 1, 1, 1, 1⟩, ⟨2, 2, 2, 2, 2⟩, ⟨3, 3, 3, 3, 3⟩]).1 1).1
      = (ring_init (List.replicate 4 default) 4).size - 1 - (3 - 1) :=
  C6_space_accounting (ring_init (List.replicate 4 default) 4)
    ⟨List.replicate 4 default, 2, 1, 3, 4⟩
    [⟨1, 1, 1, 1, 1⟩, ⟨2, 2, 2, 2, 2⟩, ⟨3, 3, 3, 3, 3⟩] 1
    (by decide) (by decide) (by decide) (by decide) (by decide)

/-- C7 counterexample: with capacity 4, after three enqueues and one dequeue
the stored producer index is 3; one more successful enqueue publishes head
0, not the 32-bit successor (3 + 1) mod 2^32 = 4 — the stored index wraps
at the capacity (it is masked on every update), not at the 32-bit
boundary. -/
theorem C7_counterexample_wrap_at_mask :
    (ring_dequeue (enqueueList (ring_init (List.replicate 4 default) 4)
        [⟨1, 1, 1, 1, 1⟩, ⟨2, 2, 2, 2, 2⟩, ⟨3, 3, 3, 3, 3⟩]).1).2.head = 3 ∧
    (ring_enqueue (ring_dequeue (enqueueList (ring_init
        (List.replicate 4 default) 4)
        [⟨1, 1, 1, 1, 1⟩, ⟨2, 2, 2, 2, 2⟩, ⟨3, 3, 3, 3, 3⟩]).1).2
        ⟨4, 4, 4, 4, 4⟩).1 = true ∧
    (ring_enqueue (ring_dequeue (enqueueList (ring_init
        (List.replicate 4 default) 4)
        [⟨1, 1, 1, 1, 1⟩, ⟨2, 2, 2, 2, 2⟩, ⟨3, 3, 3, 3, 3⟩]).1).2
        ⟨4, 4, 4, 4, 4⟩).2.head = 0 ∧
    (0 : Nat) ≠ (3 + 1) % U32 := by
  decide

/-- C7 amended: after a successful enqueue the published head equals
(previous head + 1) mod capacity, and after a successful dequeue the
published tail equals (previous tail + 1) mod capacity; the stored indices
stay strictly below the capacity, wrapping there rather than at the 32-bit
boundary. -/
theorem C7_amended_index_arithmetic (r : ring_buffer_t) (d : packet_desc_t)
    (h : ring_wf r) :
    ((ring_enqueue r d).1 = true →
      (ring_enqueue r d).2.head = (r.head + 1) % r.size ∧
      (ring_enqueue r d).2.head < r.size) ∧
    ((ring_dequeue r).1.isSome = true →
      (ring_dequeue r).2.tail = (r.tail + 1) % r.size ∧
      (ring_dequeue r).2.tail < r.size) := by
  constructor
  · intro hok
    have hnf : ring_full r = false := by
      cases hf : ring_full r with
      | false => rfl
      | true =>
        rw [ring_enqueue_of_full d hf] at hok
        cases hok
    obtain ⟨heq, _, _, _⟩ := ring_enqueue_spec d h hnf
    rw [heq]
    exact ⟨rfl, Nat.mod_lt _ h.1⟩
  · intro hok
    have hne : ring_empty r = false := by
      cases he : ring_empty r with
      | false => rfl
      | true =>
        rw [ring_dequeue_of_empty he] at hok
        cases hok
    obtain ⟨heq, _, _, _⟩ := ring_dequeue_spec h hne
    rw [heq]
    exact ⟨rfl, Nat.mod_lt _ h.1⟩

/-- C7 amended witness: on a capacity-4 ring with head 1 and tail 0 both an
enqueue and a dequeue succeed and step their index modulo the capacity. -/
theorem C7_amended_index_arithmetic_witness :
    ((ring_enqueue ⟨List.replicate 4 default, 1, 0, 3, 4⟩
        ⟨5, 5, 5, 5, 5⟩).1 = true →
      (ring_enqueue ⟨List.replicate 4 default, 1, 0, 3, 4⟩
          ⟨5, 5, 5, 5, 5⟩).2.head
        = ((⟨List.replicate 4 default, 1, 0, 3, 4⟩ : ring_buffer_t).head + 1)
          % (⟨List.replicate 4 default, 1, 0, 3, 4⟩ : ring_buffer_t).size ∧
      (ring_enqueue ⟨List.replicate 4 default, 1, 0, 3, 4⟩
          ⟨5, 5, 5, 5, 5⟩).2.head
        < (⟨List.replicate 4 default, 1, 0, 3, 4⟩ : ring_buffer_t).size) ∧
    ((ring_dequeue ⟨List.replicate 4 default, 1, 0, 3, 4⟩).1.isSome = true →
      (ring_dequeue ⟨List.replicate 4 default, 1, 0, 3, 4⟩).2.tail
        = ((⟨List.replicate 4 default, 1, 0, 3, 4⟩ : ring_buffer_t).tail + 1)
          % (⟨List.replicate 4 default, 1, 0, 3, 4⟩ : ring_buffer_t).size ∧
      (ring_dequeue ⟨List.replicate 4 default, 1, 0, 3, 4⟩).2.tail
        < (⟨List.replicate 4 default, 1, 0, 3, 4⟩ : ring_buffer_t).size) :=
  C7_amended_index_arithmetic ⟨List.replicate 4 default, 1, 0, 3, 4⟩
    ⟨5, 5, 5, 5, 5⟩ (by decide)

set_option maxRecDepth 100000 in
/-- C9: the stored head and tail stay strictly below the capacity after
`ring_init` and after every enqueue, dequeue and bulk enqueue (every
published index is masked with capacity − 1), so the unmasked accesses
`buffer[head]` and `buffer[tail]` stay inside the slot array. -/
theorem C9_indices_below_capacity (r : ring_buffer_t)
    (buf0 descs : List packet_desc_t) (d : packet_desc_t) (size count : Nat)
    (h0 : 0 < size) (hm : r.mask = r.size - 1) (hs : 0 < r.size)
    (hh : r.head < r.size) (ht : r.tail < r.size) :
    ((ring_init buf0 size).head < size ∧ (ring_init buf0 size).tail < size) ∧
    ((ring_enqueue r d).2.head < r.size ∧
      (ring_enqueue r d).2.tail < r.size) ∧
    ((ring_dequeue r).2.head < r.size ∧
      (ring_dequeue r).2.tail < r.size) ∧
    ((ring_enqueue_bulk r descs count).2.head < r.size ∧
      (ring_enqueue_bulk r descs count).2.tail < r.size) := by
  have hb : ∀ x : Nat, x &&& r.mask < r.size := by
    intro x
    have hx : x &&& r.mask ≤ r.mask := Nat.and_le_right
    omega
  refine ⟨⟨h0, h0⟩, ?_, ?_, ?_⟩
  · cases hf : ring_full r with
    | true => rw [ring_enqueue_of_full d hf]; exact ⟨hh, ht⟩
    | false =>
      rw [ring_enqueue_not_full d hf]
      exact ⟨hb _, ht⟩
  · cases he : ring_empty r with
    | true => rw [ring_dequeue_of_empty he]; exact ⟨hh, ht⟩
    | false =>
      rw [ring_dequeue_not_empty he]
      exact ⟨hh, hb _⟩
  · have hmin : (if count < ring_space r then count else ring_space r)
        = min count (ring_space r) := by
      rw [Nat.min_def]
      rcases Nat.lt_or_ge count (ring_space r) with hc | hc
      · rw [if_pos hc, if_pos (Nat.le_of_lt hc)]
      · rw [if_neg (by omega)]
        split <;> omega
    have hred := ring_enqueue_bulk_eq r descs count _ hmin
    rcases Nat.eq_zero_or_pos (min count (ring_space r)) with hz | hz
    · rw [hred, if_pos hz]
      exact ⟨hh, ht⟩
    · rw [hred, if_neg (by omega)]
      exact ⟨hb _, ht⟩

/-- C9 witness: a capacity-4 ring with head 3 and tail 1 keeps both indices
below 4 across all four operations. -/
theorem C9_indices_below_capacity_witness :
    ((ring_init (List.replicate 8 default) 8).head < 8 ∧
      (ring_init (List.replicate 8 default) 8).tail < 8) ∧
    ((ring_enqueue ⟨List.replicate 4 default, 3, 1, 3, 4⟩
        ⟨7, 7, 7, 7, 7⟩).2.head
        < (⟨List.replicate 4 default, 3, 1, 3, 4⟩ : ring_buffer_t).size ∧
      (ring_enqueue ⟨List.replicate 4 default, 3, 1, 3, 4⟩
        ⟨7, 7, 7, 7, 7⟩).2.tail
        < (⟨List.replicate 4 default, 3, 1, 3, 4⟩ : ring_buffer_t).size) ∧
    ((ring_dequeue ⟨List.replicate 4 default, 3, 1, 3, 4⟩).2.head
        < (⟨List.replicate 4 default, 3, 1, 3, 4⟩ : ring_buffer_t).size ∧
      (ring_dequeue ⟨List.replicate 4 default, 3, 1, 3, 4⟩).2.tail
        < (⟨List.replicate 4 default, 3, 1, 3, 4⟩ : ring_buffer_t).size) ∧
    ((ring_enqueue_bulk ⟨List.replicate 4 default, 3, 1, 3, 4⟩
        [⟨7, 7, 7, 7, 7⟩] 1).2.head
        < (⟨List.replicate 4 default, 3, 1, 3, 4⟩ : ring_buffer_t).size ∧
      (ring_enqueue_bulk ⟨List.replicate 4 default, 3, 1, 3, 4⟩
        [⟨7, 7, 7, 7, 7⟩] 1).2.tail
        < (⟨List.replicate 4 default, 3, 1, 3, 4⟩ : ring_buffer_t).size) :=
  C9_indices_below_capacity ⟨List.replicate 4 default, 3, 1, 3, 4⟩
    (List.replicate 8 default) [⟨7, 7, 7, 7, 7⟩] ⟨7, 7, 7, 7, 7⟩ 8 1
    (by decide) (by decide) (by decide) (by decide) (by decide)

/-- C10: empty-ring behavior — whenever head equals tail, `ring_dequeue`
returns no descriptor and leaves the ring unchanged, and `ring_peek`
returns `none` (NULL) without touching the state. -/
theorem C10_empty_behavior (r : ring_buffer_t) (h : r.head = r.tail) :
    ring_dequeue r = (none, r) ∧ ring_peek r = none := by
  have he : ring_empty r = true := by
    unfold ring_empty
    rw [h, beq_self_eq_true]
  exact ⟨ring_dequeue_of_empty he, by simp [ring_peek, he]⟩

/-- C10 witness: a ring with head = tail = 2 rejects dequeue and peek with
no state change. -/
theorem C10_empty_behavior_witness :
    ring_dequeue ⟨List.replicate 4 default, 2, 2, 3, 4⟩
      = (none, ⟨List.replicate 4 default, 2, 2, 3, 4⟩) ∧
    ring_peek ⟨List.replicate 4 default, 2, 2, 3, 4⟩ = none :=
  C10_empty_behavior ⟨List.replicate 4 default, 2, 2, 3, 4⟩ (by decide)

end RingC
